import Mathlib

/-!
Shallow embedding of the row-to-metric engine of `sql_exporter`
(`query.go` and `sql.go`), together with theorems checking the
specification's claims about it.

Modelling conventions:
* Go `float64` payloads are modelled as rationals (the code only ever
  subtracts instants and compares the result with zero).
* Go `time.Time` instants are modelled as integer nanosecond counts;
  `time.Duration.Seconds()` becomes division by 10^9 over the rationals.
* Go maps (`map[string]any`) are modelled as functions
  `String -> Option _`; a Go map iteration that only inserts fresh keys
  is modelled by a fold of pointwise updates.
* External standard-library functions (time parsing and formatting,
  value stringification) are opaque parameters gathered in `GoStd`.
-/

namespace SqlExporter

/-- Model of Go's `sql.NullString`: a string payload plus a validity flag. -/
structure NullString where
  string : String
  valid : Bool
deriving DecidableEq, Repr

/-- Model of Go's `sql.NullFloat64`: a float payload (as a rational) plus a validity flag. -/
structure NullFloat64 where
  float64 : ℚ
  valid : Bool
deriving DecidableEq, Repr

/-- Model of Go's `sql.NullTime`: an instant (integer nanoseconds) plus a validity flag. -/
structure NullTime where
  time : ℤ
  valid : Bool
deriving DecidableEq, Repr

/-- A value stored in a scanned row: exactly the three nullable variants
`scanRow` ever places in the row map. -/
inductive CellValue where
  | str : NullString → CellValue
  | float : NullFloat64 → CellValue
  | time : NullTime → CellValue
deriving DecidableEq, Repr

/-- Validity flag of a cell, independent of its variant. -/
def CellValue.valid : CellValue → Bool
  | .str v => v.valid
  | .float v => v.valid
  | .time v => v.valid

/-- A scanned row: Go's `map[string]any` keyed by column name. -/
def Row : Type := String → Option CellValue

/-- One row filter from the configuration (`config.RowFilter`). -/
structure RowFilter where
  column : String
  operator : String
  value : String
  values : List String
deriving DecidableEq, Repr

/-- One lag calculation from the configuration (`config.LagCalculation`). -/
structure LagCalculation where
  sourceColumn : String
  outputColumn : String
  timestampFormat : String
deriving DecidableEq, Repr

/-- The slice of `config.MetricConfig` consumed by the engine. -/
structure MetricConfig where
  keyLabels : List String
  values : List String
  timestampValue : String
  rowFilters : List RowFilter
  lagCalculations : List LagCalculation
  columnFilters : List String
deriving DecidableEq, Repr

/-- The `columnType` enumeration of `query.go`. -/
inductive columnType where
  | key : columnType
  | value : columnType
  | time : columnType
deriving DecidableEq, Repr

/-- `columnTypeMap`, modelled as an association list with distinct keys
(`setColumnType` only ever inserts a key that is absent). -/
def columnTypeMap : Type := List (String × columnType)

/-- Errors produced by the engine (`errors.WithContext` values), kept
structured so that theorems can speak about what an error names. -/
inductive QError where
  | conflict : String → String → QError
  | missingCols : String → List String → QError
  | external : String → QError
deriving DecidableEq, Repr

/-- External Go standard-library functions, taken as parameters of the model. -/
structure GoStd where
  sprintfFloat : ℚ → String
  sprintfNullFloat : NullFloat64 → String
  formatTime : ℤ → String
  parseTime : String → String → Option ℤ

/-- Lookup in a `columnTypeMap`. -/
def ctLookup (m : columnTypeMap) (c : String) : Option columnType :=
  List.lookup c m

/-- `setColumnType` of `query.go`: store the type for a column, failing on a
conflicting earlier registration. -/
def setColumnType (logContext columnName : String) (ctype : columnType)
    (columnTypes : columnTypeMap) : Except QError columnTypeMap :=
  match ctLookup columnTypes columnName with
  | some previousType =>
      if previousType = ctype then .ok columnTypes
      else .error (.conflict logContext columnName)
  | none => .ok ((columnName, ctype) :: columnTypes)

/-- The per-family set of transformation output columns built at the top of
the `NewQuery` loop body. -/
def transformedColumns (mf : MetricConfig) (c : String) : Bool :=
  mf.lagCalculations.any (fun lagCalc => lagCalc.outputColumn = c)

/-- The column registrations performed by one iteration of the `NewQuery`
loop, in source order: lag-calculation sources, row-filter columns, key
labels, non-transformed value columns, and the timestamp column. -/
def registrationsOf (mf : MetricConfig) : List (String × columnType) :=
  (mf.lagCalculations.map (fun lagCalc => (lagCalc.sourceColumn, columnType.key)))
  ++ (mf.rowFilters.map (fun filter => (filter.column, columnType.key)))
  ++ (mf.keyLabels.map (fun kcol => (kcol, columnType.key)))
  ++ ((mf.values.filter (fun vcol => !transformedColumns mf vcol)).map
        (fun vcol => (vcol, columnType.value)))
  ++ (if mf.timestampValue ≠ "" then [(mf.timestampValue, columnType.time)] else [])

/-- Sequentially apply `setColumnType` to a list of registrations. -/
def setAll (logContext : String) :
    columnTypeMap → List (String × columnType) → Except QError columnTypeMap
  | m, [] => .ok m
  | m, (c, t) :: rest =>
      match setColumnType logContext c t m with
      | .error e => .error e
      | .ok m' => setAll logContext m' rest

/-- `NewQuery` of `query.go`, restricted to the part the claims are about:
building the column-type map from the metric-family configurations. -/
def NewQuery (logContext : String) (metricFamilies : List MetricConfig) :
    Except QError columnTypeMap :=
  setAll logContext [] (metricFamilies.flatMap registrationsOf)

/-- Operator dispatch of `applyRowFilter`: compare the stringified value
against the filter, an unknown operator matching everything. -/
def operatorMatches (filter : RowFilter) (valueStr : String) : Bool :=
  match filter.operator with
  | "equals" => valueStr = filter.value
  | "not_equals" => valueStr ≠ filter.value
  | "in" => filter.values.contains valueStr
  | "not_in" => !(filter.values.contains valueStr)
  | "contains" => List.IsInfix filter.value.toList valueStr.toList
  | _ => true

/-- `applyRowFilter` of `query.go`: a missing column and an invalid (NULL)
value both exclude; otherwise the stringified value is matched against the
operator. -/
def applyRowFilter (ext : GoStd) (row : Row) (filter : RowFilter) : Bool :=
  match row filter.column with
  | none => false
  | some value =>
    match value with
    | .str v => if !v.valid then false else operatorMatches filter v.string
    | .float v => if !v.valid then false else operatorMatches filter (ext.sprintfFloat v.float64)
    | .time v => if !v.valid then false else operatorMatches filter (ext.formatTime v.time)

/-- `shouldIncludeRow` of `query.go`: conjunction of all configured filters. -/
def shouldIncludeRow (ext : GoStd) (row : Row) (metric : MetricConfig) : Bool :=
  metric.rowFilters.all (fun filter => applyRowFilter ext row filter)

/-- Elapsed seconds of a nanosecond duration (`time.Duration.Seconds`). -/
def durationSeconds (d : ℤ) : ℚ := (d : ℚ) / 1000000000

/-- The default Trino timestamp layout of `calculateLag`. -/
def defaultTimeFormat : String := "2006-01-02 15:04:05.000 UTC"

/-- The string-parsing tail of `calculateLag`: empty string yields zero, the
format defaults, and a parse failure yields zero. -/
def parseLag (ext : GoStd) (now : ℤ) (timestampStr format : String) : ℚ :=
  if timestampStr = "" then 0
  else
    let fmt := if format = "" then defaultTimeFormat else format
    match ext.parseTime fmt timestampStr with
    | none => 0
    | some parsedTime => durationSeconds (now - parsedTime)

/-- `calculateLag` of `query.go`: invalid values yield zero, a native
timestamp value short-circuits parsing, strings (and stringified other
values) go through `parseLag`. -/
def calculateLag (ext : GoStd) (now : ℤ) (timestampValue : CellValue) (format : String) : ℚ :=
  match timestampValue with
  | .str v => if !v.valid then 0 else parseLag ext now v.string format
  | .time v => if !v.valid then 0 else durationSeconds (now - v.time)
  | .float v => parseLag ext now (ext.sprintfNullFloat v) format

/-- Pointwise update of a row map (`result[k] = v`). -/
def updateRow (r : Row) (k : String) (v : CellValue) : Row :=
  fun c => if c = k then some v else r c

/-- Body of the lag-calculation loop of `applyTransformations`: when the
source column is present in the (original) row, write the output column as
a nullable float that is valid exactly when the lag is nonzero. -/
def lagStep (ext : GoStd) (now : ℤ) (row : Row) (result : Row) (lagCalc : LagCalculation) : Row :=
  match row lagCalc.sourceColumn with
  | some sourceValue =>
      let lagSeconds := calculateLag ext now sourceValue lagCalc.timestampFormat
      updateRow result lagCalc.outputColumn
        (.float { float64 := lagSeconds, valid := decide (lagSeconds ≠ 0) })
  | none => result

/-- The lag-calculation loop of `applyTransformations`, starting from the
copied row. -/
def applyLagCalculations (ext : GoStd) (now : ℤ) (row : Row) (metric : MetricConfig) : Row :=
  metric.lagCalculations.foldl (lagStep ext now row) row

/-- `applyTransformations` of `query.go`: copy the row, apply lag
calculations, then apply the optional column allowlist. -/
def applyTransformations (ext : GoStd) (now : ℤ) (row : Row) (metric : MetricConfig) : Row :=
  let result := applyLagCalculations ext now row metric
  if metric.columnFilters ≠ [] then
    fun c => if metric.columnFilters.contains c then result c else none
  else result

/-- Kind of scan destination slot allocated per returned column. -/
inductive SlotKind where
  | kString : SlotKind
  | kFloat : SlotKind
  | kTime : SlotKind
  | kAny : SlotKind
deriving DecidableEq, Repr

/-- Slot allocated for one returned column, by its classified role. -/
def slotFor (m : columnTypeMap) (column : String) : SlotKind :=
  match ctLookup m column with
  | some .key => .kString
  | some .value => .kFloat
  | some .time => .kTime
  | none => .kAny

/-- `scanDest` of `query.go`: allocate one slot per returned column, then
fail naming the classified columns with no matching destination. -/
def scanDest (logContext : String) (m : columnTypeMap) (columns : List String) :
    Except QError (List SlotKind) :=
  let dest := columns.map (slotFor m)
  let haveKeys := (m.map Prod.fst).filter (fun c => columns.contains c)
  if haveKeys.length ≠ m.length then
    .error (.missingCols logContext ((m.map Prod.fst).filter (fun c => !columns.contains c)))
  else .ok dest

/-- Body of the `scanRow` loop of `query.go` (success path): pick a
classified column of the scanned destination buffer into the row map,
preserving the nullable value (validity flag included) unchanged. The
variant match mirrors the Go type assertion, which `scanDest`'s slot
layout guarantees. -/
def scanStep (m : columnTypeMap) (result : Row) (cd : String × CellValue) : Row :=
  match ctLookup m cd.1, cd.2 with
  | some .key, .str v => updateRow result cd.1 (.str v)
  | some .value, .float v => updateRow result cd.1 (.float v)
  | some .time, .time v => updateRow result cd.1 (.time v)
  | _, _ => result

/-- The row map built by `scanRow`, folding `scanStep` over the columns
paired with their scanned destination slots. -/
def scanRow (m : columnTypeMap) (columns : List String) (dest : List CellValue) : Row :=
  (columns.zip dest).foldl (scanStep m) (fun _ => none)

/-- Mutable execution state of a `Query`: the handle and statement of the
lazily prepared statement (identified by numbers). -/
structure QueryState where
  conn : Option ℕ
  stmt : Option ℕ
deriving DecidableEq, Repr

/-- How one call to `run` ends: a panic, a normal return, or an error
return. -/
inductive RunOutcome where
  | panicked : RunOutcome
  | completed : RunOutcome
  | failed : RunOutcome
deriving DecidableEq, Repr

/-- `run` of `query.go`: panic when the query was bound to a different
handle; otherwise execute unprepared, or lazily prepare and bind the
statement to this handle. `prepResult` is the driver's answer to
`PrepareContext`. -/
def run (q : QueryState) (noPreparedStatement : Bool) (conn : ℕ)
    (prepResult : Except String ℕ) : RunOutcome × QueryState :=
  if q.conn ≠ none ∧ q.conn ≠ some conn then (.panicked, q)
  else if noPreparedStatement then (.completed, q)
  else
    match q.stmt with
    | some _ => (.completed, q)
    | none =>
        match prepResult with
        | .error _ => (.failed, q)
        | .ok stmt => (.completed, { conn := some conn, stmt := some stmt })

/-- Repeatedly `run` against one fixed handle, threading the query state;
each step carries its own mode flag and prepare answer. -/
def runSeq (q : QueryState) (conn : ℕ) :
    List (Bool × Except String ℕ) → List RunOutcome × QueryState
  | [] => ([], q)
  | step :: rest =>
      let next := run q step.1 conn step.2
      let tail := runSeq next.2 conn rest
      (next.1 :: tail.1, tail.2)

/-- Result set handed back by a successful `run`: the returned column
names, the per-row scan results, and the final cursor error. -/
structure RowsData where
  columns : List String
  rows : List (Except QError Row)
  finalErr : Option String

/-- One item sent on the output channel: an invalid metric, or a call to a
metric family's collector with the transformed row. -/
inductive Output where
  | invalid : QError → Output
  | metric : MetricConfig → Row → Output

/-- Contribution of one metric family to one scanned row: nothing when the
row filters reject the row, else one collect call on the transformed row. -/
def processRowFamily (ext : GoStd) (now : ℤ) (row : Row) (mf : MetricConfig) : List Output :=
  if !shouldIncludeRow ext row mf then []
  else [.metric mf (applyTransformations ext now row mf)]

/-- The per-row inner loop of `Collect` over the metric families. -/
def processRow (ext : GoStd) (now : ℤ) (mfs : List MetricConfig) (row : Row) : List Output :=
  mfs.flatMap (processRowFamily ext now row)

/-- One iteration of the `Collect` row loop: a row whose scan failed emits
one invalid metric; a scanned row goes through the per-family pipeline. -/
def rowOutputs (ext : GoStd) (now : ℤ) (mfs : List MetricConfig) :
    Except QError Row → List Output
  | .error e => [.invalid e]
  | .ok row => processRow ext now mfs row

/-- The final cursor-error report of `Collect` (`rows.Err()`). -/
def finalOutputs (logContext : String) : Option String → List Output
  | some msg => [.invalid (.external (logContext ++ ": " ++ msg))]
  | none => []

/-- `Collect` of `query.go`: context check, execution, destination-slot
construction (skipped silently in ignore-missing-values mode), then the
row loop with per-row error isolation and a final cursor-error report. -/
def Collect (ext : GoStd) (now : ℤ) (logContext : String) (ctxErr : Option QError)
    (runResult : Except QError RowsData) (ignoreMissingVals : Bool)
    (m : columnTypeMap) (mfs : List MetricConfig) : List Output :=
  match ctxErr with
  | some e => [.invalid e]
  | none =>
    match runResult with
    | .error e => [.invalid e]
    | .ok rowsData =>
      match scanDest logContext m rowsData.columns with
      | .error e => if ignoreMissingVals then [] else [.invalid e]
      | .ok _ =>
        (rowsData.rows.flatMap (rowOutputs ext now mfs))
        ++ finalOutputs logContext rowsData.finalErr

/-- Left-brace character, kept out of literals. -/
def lbrace : Char := Char.ofNat 123

/-- Right-brace character, kept out of literals. -/
def rbrace : Char := Char.ofNat 125

/-- Go's `os.isShellSpecialVar`. -/
def isShellSpecialVar (c : Char) : Bool :=
  decide (c ∈ ['*', '#', '$', '@', '!', '?', '0', '1', '2', '3', '4', '5', '6', '7', '8', '9'])

/-- Go's `os.isAlphaNum`. -/
def isAlphaNum (c : Char) : Bool :=
  decide (c = '_' ∨ ('0' ≤ c ∧ c ≤ '9') ∨ ('a' ≤ c ∧ c ≤ 'z') ∨ ('A' ≤ c ∧ c ≤ 'Z'))

/-- The closing-brace scan of Go's `os.getShellName`, applied to the text
after the opening brace: bad syntax eats two or one characters, otherwise
the name runs up to the closing brace. -/
def braceScan (rest : List Char) : String × ℕ :=
  match rest.findIdx? (fun c => c == rbrace) with
  | some k => if k = 0 then ("", 2) else (String.mk (rest.take k), k + 2)
  | none => ("", 1)

/-- Go's `os.getShellName`: the name starting the text and how many
characters it occupies. -/
def getShellName (s : List Char) : String × ℕ :=
  match s with
  | [] => ("", 0)
  | c0 :: rest =>
    if c0 = lbrace then
      match rest with
      | c1 :: c2 :: _ =>
          if isShellSpecialVar c1 ∧ c2 = rbrace then (String.mk [c1], 3) else braceScan rest
      | _ => braceScan rest
    else if isShellSpecialVar c0 then (String.mk [c0], 1)
    else (String.mk (s.takeWhile isAlphaNum), (s.takeWhile isAlphaNum).length)

/-- Go's `os.Expand` over a character list: replace each shell reference by
the mapping's answer, eat invalid brace syntax, and keep a bare dollar. -/
def expand (mapping : String → String) : List Char → List Char
  | [] => []
  | c :: rest =>
    if c = '$' ∧ rest ≠ [] then
      let nw := getShellName rest
      if nw.1 = "" ∧ nw.2 > 0 then expand mapping (rest.drop nw.2)
      else if nw.1 = "" then '$' :: expand mapping rest
      else (mapping nw.1).toList ++ expand mapping (rest.drop nw.2)
    else c :: expand mapping rest
termination_by l => l.length
decreasing_by
  all_goals simp [List.length_drop]
  all_goals omega

/-- The fallback lookup of `expandEnv` in `sql.go`: a defined variable
expands to its value, an undefined one to the literal dollar form. -/
def lookupFunc (env : String → Option String) (name : String) : String :=
  match env name with
  | some value => value
  | none => "$" ++ name

/-- `expandEnv` of `sql.go`: `os.Expand` with the fallback lookup. -/
def expandEnv (env : String → Option String) (s : String) : String :=
  String.mk (expand (lookupFunc env) s.toList)

/-! ## Helper lemmas and sample data -/

/-- The five operators recognised by `applyRowFilter`. -/
def knownOperators : List String := ["equals", "not_equals", "in", "not_in", "contains"]

theorem operatorMatches_unknown (filter : RowFilter) (s : String)
    (h : filter.operator ∉ knownOperators) : operatorMatches filter s = true := by
  unfold operatorMatches
  split
  · exact absurd (by simp [knownOperators, *]) h
  · exact absurd (by simp [knownOperators, *]) h
  · exact absurd (by simp [knownOperators, *]) h
  · exact absurd (by simp [knownOperators, *]) h
  · exact absurd (by simp [knownOperators, *]) h
  · rfl

/-- Sample external functions used by concrete evaluations. -/
def extSample : GoStd where
  sprintfFloat := fun _ => "1"
  sprintfNullFloat := fun _ => "nf"
  formatTime := fun _ => "t"
  parseTime := fun _ s => if s = "past" then some 5000000000 else none

/-- Sample row used by concrete evaluations. -/
def rowSample : Row := fun c =>
  if c = "env" then some (.str { string := "prod", valid := true })
  else if c = "nul" then some (.str { string := "", valid := false })
  else if c = "when" then some (.str { string := "past", valid := true })
  else none

/-- Sample metric family used by concrete evaluations. -/
def mfSample : MetricConfig where
  keyLabels := ["env"]
  values := []
  timestampValue := ""
  rowFilters := [{ column := "env", operator := "equals", value := "prod", values := [] }]
  lagCalculations := [{ sourceColumn := "when", outputColumn := "lag", timestampFormat := "" }]
  columnFilters := []

theorem missingList_spec (m : columnTypeMap) (columns : List String) (c : String) :
    c ∈ (m.map Prod.fst).filter (fun c => !columns.contains c) ↔
      c ∈ m.map Prod.fst ∧ c ∉ columns := by
  simp [List.mem_filter]

theorem scanDest_cond_iff (m : columnTypeMap) (columns : List String) :
    ((m.map Prod.fst).filter (fun c => columns.contains c)).length ≠ m.length ↔
      ∃ c ∈ m.map Prod.fst, c ∉ columns := by
  have hadd := List.length_eq_length_filter_add (l := m.map Prod.fst)
    (fun c => columns.contains c)
  rw [List.length_map] at hadd
  constructor
  · intro hne
    have hpos : 0 < ((m.map Prod.fst).filter (fun c => !columns.contains c)).length := by
      omega
    rcases List.exists_mem_of_length_pos hpos with ⟨c, hc⟩
    rcases (missingList_spec m columns c).mp hc with ⟨h1, h2⟩
    exact ⟨c, h1, h2⟩
  · rintro ⟨c, h1, h2⟩
    have hc : c ∈ (m.map Prod.fst).filter (fun c => !columns.contains c) :=
      (missingList_spec m columns c).mpr ⟨h1, h2⟩
    have hpos : 0 < ((m.map Prod.fst).filter (fun c => !columns.contains c)).length :=
      List.length_pos.mpr (List.ne_nil_of_mem hc)
    omega

theorem applyLag_preserve (ext : GoStd) (now : ℤ) (row : Row)
    (calcs : List LagCalculation) (res : Row) (k : String)
    (h : ∀ lagCalc ∈ calcs, lagCalc.outputColumn ≠ k) :
    List.foldl (lagStep ext now row) res calcs k = res k := by
  induction calcs generalizing res with
  | nil => rfl
  | cons lc rest ih =>
      rw [List.foldl_cons, ih _ (fun x hx => h x (List.mem_cons_of_mem lc hx))]
      have hk : ¬(k = lc.outputColumn) := fun hk =>
        (h lc (List.mem_cons_self lc rest)) hk.symm
      unfold lagStep
      cases hsrc : row lc.sourceColumn with
      | some v => simp [updateRow, hk]
      | none => rfl

theorem run_no_panic_preserve (q : QueryState) (np : Bool) (conn : ℕ)
    (pr : Except String ℕ) (h : q.conn = none ∨ q.conn = some conn) :
    (run q np conn pr).1 ≠ .panicked ∧
      ((run q np conn pr).2.conn = none ∨ (run q np conn pr).2.conn = some conn) := by
  have hcond : ¬(q.conn ≠ none ∧ q.conn ≠ some conn) := by
    rcases h with h | h <;> simp [h]
  unfold run
  rw [if_neg hcond]
  split
  · exact ⟨by simp, h⟩
  · split
    · exact ⟨by simp, h⟩
    · split
      · exact ⟨by simp, h⟩
      · exact ⟨by simp, Or.inr rfl⟩

/-- `scanStep` leaves every other key of the row map unchanged. -/
theorem scanStep_lookup_ne (m : columnTypeMap) (res : Row) (cd : String × CellValue)
    (k : String) (h : cd.1 ≠ k) : scanStep m res cd k = res k := by
  obtain ⟨c, d⟩ := cd
  have hne : ¬(k = c) := fun hk => h (by simp [hk])
  unfold scanStep
  rcases h1 : ctLookup m c with _ | r
  · simp
  · cases r <;> cases d <;> simp [updateRow, hne]

/-- Whether a cell's variant matches a column role (the Go type assertion). -/
def variantMatches : columnType → CellValue → Bool
  | .key, .str _ => true
  | .value, .float _ => true
  | .time, .time _ => true
  | _, _ => false

theorem scanStep_hit (m : columnTypeMap) (res : Row) (c : String) (cell : CellValue)
    (role : columnType) (hrole : ctLookup m c = some role)
    (halign : variantMatches role cell = true) :
    scanStep m res (c, cell) = updateRow res c cell := by
  cases role <;> cases cell <;> simp [variantMatches] at halign <;>
    simp [scanStep, hrole]

theorem scanFold_preserve (m : columnTypeMap) (l : List (String × CellValue))
    (res : Row) (k : String) (h : ∀ p ∈ l, p.1 ≠ k) :
    List.foldl (scanStep m) res l k = res k := by
  induction l generalizing res with
  | nil => rfl
  | cons cd rest ih =>
      rw [List.foldl_cons, ih _ (fun x hx => h x (List.mem_cons_of_mem cd hx)),
        scanStep_lookup_ne m res cd k (h cd (List.mem_cons_self cd rest))]

theorem zip_keys_sublist (l₁ : List String) (l₂ : List CellValue) :
    ((l₁.zip l₂).map Prod.fst).Sublist l₁ := by
  induction l₁ generalizing l₂ with
  | nil => simp
  | cons x xs ih =>
      cases l₂ with
      | nil => simp
      | cons d ds =>
          rw [List.zip_cons_cons, List.map_cons]
          exact List.Sublist.cons₂ x (ih ds)

theorem scanFold_mem (m : columnTypeMap) (l : List (String × CellValue)) (res : Row)
    (c : String) (cell : CellValue) (role : columnType)
    (hnd : (l.map Prod.fst).Nodup) (hmem : (c, cell) ∈ l)
    (hrole : ctLookup m c = some role) (halign : variantMatches role cell = true) :
    List.foldl (scanStep m) res l c = some cell := by
  induction l generalizing res with
  | nil => simp at hmem
  | cons cd rest ih =>
      rw [List.map_cons, List.nodup_cons] at hnd
      rcases List.mem_cons.mp hmem with heq | hrest
      · subst heq
        have hc : c ∉ List.map Prod.fst rest := by simpa using hnd.1
        rw [List.foldl_cons,
          scanFold_preserve m rest _ c
            (fun p hp hpc => hc (hpc ▸ List.mem_map_of_mem Prod.fst hp)),
          scanStep_hit m res c cell role hrole halign]
        simp [updateRow]
      · rw [List.foldl_cons]
        exact ih _ hnd.2 hrest

/-- Spec-side: any two registrations of the same column agree on the role. -/
def listConsistent (regs : List (String × columnType)) : Prop :=
  regs.Pairwise (fun a b => a.1 = b.1 → a.2 = b.2)

/-- Spec-side: every registration agrees with the map's existing binding. -/
def mapConsistent (m : columnTypeMap) (regs : List (String × columnType)) : Prop :=
  ∀ r ∈ regs, ∀ t', ctLookup m r.1 = some t' → t' = r.2

/-- The role given by the first registration of a column, if any. -/
def firstRole (regs : List (String × columnType)) (c : String) : Option columnType :=
  (regs.find? (fun r => r.1 == c)).map Prod.snd

theorem ctLookup_cons (c : String) (t : columnType) (m : columnTypeMap) (x : String) :
    ctLookup ((c, t) :: m) x = if x = c then some t else ctLookup m x := by
  unfold ctLookup
  by_cases h : x = c
  · simp [List.lookup_cons, h]
  · have hb : (x == c) = false := beq_eq_false_iff_ne.mpr h
    simp [List.lookup_cons, hb, h]

theorem firstRole_cons_self (c : String) (t : columnType)
    (rest : List (String × columnType)) : firstRole ((c, t) :: rest) c = some t := by
  simp [firstRole, List.find?_cons]

theorem firstRole_cons_ne (c : String) (t : columnType)
    (rest : List (String × columnType)) (x : String) (h : x ≠ c) :
    firstRole ((c, t) :: rest) x = firstRole rest x := by
  have : ¬(c = x) := fun hc => h hc.symm
  simp [firstRole, List.find?_cons, this]

theorem listConsistent_cons (r : String × columnType) (rest : List (String × columnType)) :
    listConsistent (r :: rest) ↔
      (∀ r' ∈ rest, r.1 = r'.1 → r.2 = r'.2) ∧ listConsistent rest := by
  unfold listConsistent
  exact List.pairwise_cons

theorem setAll_ok (lc : String) (regs : List (String × columnType)) (m : columnTypeMap)
    (hlist : listConsistent regs) (hmap : mapConsistent m regs) :
    ∃ m', setAll lc m regs = .ok m' ∧
      ∀ c, ctLookup m' c = (ctLookup m c).or (firstRole regs c) := by
  induction regs generalizing m with
  | nil =>
      refine ⟨m, rfl, fun c => ?_⟩
      cases h : ctLookup m c <;> simp [h, firstRole]
  | cons r rest ih =>
      obtain ⟨c, t⟩ := r
      rw [listConsistent_cons] at hlist
      have hmaprest : mapConsistent m rest :=
        fun r hr t' ht' => hmap r (List.mem_cons_of_mem _ hr) t' ht'
      cases hm : ctLookup m c with
      | some prev =>
          have hpt : prev = t := hmap (c, t) (List.mem_cons_self _ _) prev hm
          subst hpt
          rcases ih _ hlist.2 hmaprest with ⟨m', hok, hlook⟩
          refine ⟨m', ?_, fun x => ?_⟩
          · simp [setAll, setColumnType, hm, hok]
          · by_cases hx : x = c
            · subst hx
              rw [hlook x, hm]
              simp
            · rw [hlook x, firstRole_cons_ne c prev rest x hx]
      | none =>
          have hmc : mapConsistent ((c, t) :: m) rest := by
            intro r hr t' ht'
            rw [ctLookup_cons] at ht'
            by_cases hrc : r.1 = c
            · rw [if_pos hrc] at ht'
              have h1 : t = t' := Option.some.inj ht'
              have h2 : t = r.2 := hlist.1 r hr hrc.symm
              exact h1 ▸ h2
            · rw [if_neg hrc] at ht'
              exact hmaprest r hr t' ht'
          rcases ih _ hlist.2 hmc with ⟨m', hok, hlook⟩
          refine ⟨m', ?_, fun x => ?_⟩
          · simp [setAll, setColumnType, hm, hok]
          · by_cases hx : x = c
            · subst hx
              rw [hlook x, ctLookup_cons, if_pos rfl, hm, firstRole_cons_self]
              simp
            · rw [hlook x, ctLookup_cons, if_neg hx,
                firstRole_cons_ne c t rest x hx]
theorem setAll_ok_inv (lc : String) (regs : List (String × columnType))
    (m m' : columnTypeMap) (h : setAll lc m regs = .ok m') :
    listConsistent regs ∧ mapConsistent m regs := by
  induction regs generalizing m with
  | nil =>
      exact ⟨List.Pairwise.nil, fun r hr => absurd hr (List.not_mem_nil r)⟩
  | cons r rest ih =>
      obtain ⟨c, t⟩ := r
      rw [listConsistent_cons]
      cases hm : ctLookup m c with
      | some prev =>
          simp only [setAll, setColumnType, hm] at h
          by_cases hpt : prev = t
          · subst hpt
            rw [if_pos rfl] at h
            rcases ih _ h with ⟨h1, h2⟩
            refine ⟨⟨fun r' hr' hc' => ?_, h1⟩, fun r' hr' t' ht' => ?_⟩
            · exact h2 r' hr' prev (by rw [← hc']; exact hm)
            · rcases List.mem_cons.mp hr' with heq | hmemr
              · subst heq
                rw [hm] at ht'
                exact (Option.some.inj ht').symm
              · exact h2 r' hmemr t' ht'
          · rw [if_neg hpt] at h
            exact Except.noConfusion h
      | none =>
          simp only [setAll, setColumnType, hm] at h
          rcases ih _ h with ⟨h1, h2⟩
          refine ⟨⟨fun r' hr' hc' => ?_, h1⟩, fun r' hr' t' ht' => ?_⟩
          · exact h2 r' hr' t (by rw [ctLookup_cons, if_pos hc'.symm])
          · rcases List.mem_cons.mp hr' with heq | hmemr
            · subst heq
              rw [hm] at ht'
              exact Option.noConfusion ht'
            · by_cases hrc : r'.1 = c
              · rw [hrc, hm] at ht'
                exact Option.noConfusion ht'
              · exact h2 r' hmemr t' (by rw [ctLookup_cons, if_neg hrc]; exact ht')

theorem setAll_error (lc : String) (regs : List (String × columnType))
    (m : columnTypeMap) (e : QError) (h : setAll lc m regs = .error e) :
    ∃ c t t', e = .conflict lc c ∧ (c, t) ∈ regs ∧
      (ctLookup m c = some t' ∨ (c, t') ∈ regs) ∧ t' ≠ t := by
  induction regs generalizing m with
  | nil => exact Except.noConfusion h
  | cons r rest ih =>
      obtain ⟨c, t⟩ := r
      cases hm : ctLookup m c with
      | some prev =>
          simp only [setAll, setColumnType, hm] at h
          by_cases hpt : prev = t
          · subst hpt
            rw [if_pos rfl] at h
            rcases ih _ h with ⟨c', t₁, t', he, hmem, hdis, hne⟩
            refine ⟨c', t₁, t', he, List.mem_cons_of_mem _ hmem, ?_, hne⟩
            rcases hdis with hl | hr
            · exact Or.inl hl
            · exact Or.inr (List.mem_cons_of_mem _ hr)
          · rw [if_neg hpt] at h
            have he : e = .conflict lc c := (Except.error.inj h).symm
            exact ⟨c, t, prev, he, List.mem_cons_self _ _, Or.inl hm, hpt⟩
      | none =>
          simp only [setAll, setColumnType, hm] at h
          rcases ih _ h with ⟨c', t₁, t', he, hmem, hdis, hne⟩
          refine ⟨c', t₁, t', he, List.mem_cons_of_mem _ hmem, ?_, hne⟩
          rcases hdis with hl | hr
          · rw [ctLookup_cons] at hl
            by_cases hcc : c' = c
            · subst hcc
              rw [if_pos rfl] at hl
              have ht : t' = t := (Option.some.inj hl).symm
              subst ht
              exact Or.inr (List.mem_cons_self _ _)
            · rw [if_neg hcc] at hl
              exact Or.inl hl
          · exact Or.inr (List.mem_cons_of_mem _ hr)

theorem applyLag_write (ext : GoStd) (now : ℤ) (row : Row)
    (calcs : List LagCalculation)
    (hnd : (calcs.map (fun lc => lc.outputColumn)).Nodup)
    (lagCalc : LagCalculation) (hmem : lagCalc ∈ calcs) (v : CellValue)
    (hsrc : row lagCalc.sourceColumn = some v) (res : Row) :
    List.foldl (lagStep ext now row) res calcs lagCalc.outputColumn =
      some (.float
        { float64 := calculateLag ext now v lagCalc.timestampFormat
          valid := decide (calculateLag ext now v lagCalc.timestampFormat ≠ 0) }) := by
  induction calcs generalizing res with
  | nil => simp at hmem
  | cons lc rest ih =>
      rw [List.map_cons, List.nodup_cons] at hnd
      rcases List.mem_cons.mp hmem with heq | hrest
      · subst heq
        rw [List.foldl_cons,
          applyLag_preserve ext now row rest _ lagCalc.outputColumn
            (fun x hx hxo => hnd.1 (hxo ▸ List.mem_map_of_mem _ hx))]
        unfold lagStep
        rw [hsrc]
        simp [updateRow]
      · rw [List.foldl_cons]
        exact ih hnd.2 hrest _

theorem takeWhile_all_append (p : Char → Bool) (l₁ l₂ : List Char)
    (h1 : ∀ c ∈ l₁, p c = true)
    (h2 : ∀ c, l₂.head? = some c → p c = false) :
    (l₁ ++ l₂).takeWhile p = l₁ := by
  induction l₁ with
  | nil =>
      cases l₂ with
      | nil => rfl
      | cons c cs =>
          rw [List.nil_append]
          exact List.takeWhile_cons_of_neg (by simp [h2 c rfl])
  | cons c cs ih =>
      rw [List.cons_append, List.takeWhile_cons_of_pos (h1 c (List.mem_cons_self c cs)),
        ih (fun x hx => h1 x (List.mem_cons_of_mem c hx))]

theorem findIdx_shift (p : Char → Bool) (l₁ l₂ : List Char) (c : Char)
    (h1 : ∀ x ∈ l₁, p x = false) (hc : p c = true) (i : ℕ) :
    List.findIdx? p (l₁ ++ c :: l₂) i = some (i + l₁.length) := by
  induction l₁ generalizing i with
  | nil => simp [List.findIdx?_cons, hc]
  | cons x xs ih =>
      rw [List.cons_append, List.findIdx?_cons,
        if_neg (by simp [h1 x (List.mem_cons_self x xs)]),
        ih (fun y hy => h1 y (List.mem_cons_of_mem x hy)) (i + 1)]
      rw [Option.some.injEq]
      rw [List.length_cons]
      omega

theorem braceScan_spec (name suffix : List Char) (hnn : name ≠ [])
    (hnb : rbrace ∉ name) :
    braceScan (name ++ rbrace :: suffix) = (String.mk name, name.length + 2) := by
  unfold braceScan
  rw [findIdx_shift (fun c => c == rbrace) name suffix rbrace
    (fun x hx => beq_eq_false_iff_ne.mpr (fun hxe => hnb (hxe ▸ hx))) (by simp) 0]
  have hlen : ¬(0 + name.length = 0) := by
    cases name with
    | nil => exact absurd rfl hnn
    | cons a l => simp
  show (if 0 + name.length = 0 then (("" : String), 2)
    else (String.mk (List.take (0 + name.length) (name ++ rbrace :: suffix)),
      0 + name.length + 2)) = (String.mk name, name.length + 2)
  rw [if_neg hlen, Nat.zero_add, List.take_left]

theorem string_mk_ne_empty (l : List Char) (h : l ≠ []) : String.mk l ≠ "" := by
  intro hx
  exact h (congrArg String.data hx)

theorem getShellName_plain (name suffix : List Char)
    (hnn : name ≠ []) (hal : ∀ c ∈ name, isAlphaNum c = true)
    (hsp : ∀ c, name.head? = some c → isShellSpecialVar c = false)
    (hsuf : ∀ c, suffix.head? = some c → isAlphaNum c = false) :
    getShellName (name ++ suffix) = (String.mk name, name.length) := by
  cases name with
  | nil => exact absurd rfl hnn
  | cons nc ncs =>
      have hna : isAlphaNum nc = true := hal nc (List.mem_cons_self _ _)
      have hlb : isAlphaNum lbrace = false := by decide
      have hnb : ¬(nc = lbrace) := by
        intro hx
        rw [hx, hlb] at hna
        exact Bool.noConfusion hna
      have hns : ¬(isShellSpecialVar nc = true) := by simp [hsp nc rfl]
      rw [List.cons_append]
      simp only [getShellName]
      rw [if_neg hnb, if_neg hns]
      rw [show nc :: (ncs ++ suffix) = (nc :: ncs) ++ suffix from rfl,
        takeWhile_all_append isAlphaNum (nc :: ncs) suffix hal hsuf]

theorem getShellName_brace (name suffix : List Char)
    (hnn : name ≠ []) (hnb : rbrace ∉ name) :
    getShellName (lbrace :: (name ++ rbrace :: suffix)) =
      (String.mk name, name.length + 2) := by
  cases name with
  | nil => exact absurd rfl hnn
  | cons n0 ns =>
      have hscan := braceScan_spec (n0 :: ns) suffix hnn hnb
      cases ns with
      | nil =>
          show (if isShellSpecialVar n0 = true ∧ rbrace = rbrace then (String.mk [n0], 3)
            else braceScan ([n0] ++ rbrace :: suffix)) = (String.mk [n0], [n0].length + 2)
          by_cases hsp : isShellSpecialVar n0 = true
          · rw [if_pos ⟨hsp, rfl⟩]
            rfl
          · rw [if_neg (fun hx => hsp hx.1)]
            exact braceScan_spec [n0] suffix (by simp) hnb
      | cons n1 ns' =>
          have hn1 : ¬(n1 = rbrace) := by
            intro hx
            rw [hx] at hnb
            simp at hnb
          show (if isShellSpecialVar n0 = true ∧ n1 = rbrace then (String.mk [n0], 3)
            else braceScan ((n0 :: n1 :: ns') ++ rbrace :: suffix)) =
            (String.mk (n0 :: n1 :: ns'), (n0 :: n1 :: ns').length + 2)
          rw [if_neg (fun hx => hn1 hx.2)]
          exact hscan

theorem expand_no_dollar (f : String → String) (pre s : List Char)
    (h : '$' ∉ pre) : expand f (pre ++ s) = pre ++ expand f s := by
  induction pre with
  | nil => rfl
  | cons c cs ih =>
      by_cases hc : c = '$'
      · subst hc
        exact absurd (List.mem_cons_self _ _) h
      · rw [List.cons_append]
        simp only [expand]
        rw [if_neg (fun hx => hc hx.1),
          ih (fun hx => h (List.mem_cons_of_mem c hx)), List.cons_append]

theorem expand_plain_ref (f : String → String) (name suffix : List Char)
    (hnn : name ≠ []) (hal : ∀ c ∈ name, isAlphaNum c = true)
    (hsp : ∀ c, name.head? = some c → isShellSpecialVar c = false)
    (hsuf : ∀ c, suffix.head? = some c → isAlphaNum c = false) :
    expand f ('$' :: (name ++ suffix)) =
      (f (String.mk name)).toList ++ expand f suffix := by
  have hne : ¬(name ++ suffix = []) := by
    cases name with
    | nil => exact absurd rfl hnn
    | cons a l => simp
  have hmk : String.mk name ≠ "" := string_mk_ne_empty name hnn
  have hgsn := getShellName_plain name suffix hnn hal hsp hsuf
  simp only [expand]
  rw [if_pos ⟨trivial, hne⟩, hgsn]
  rw [if_neg (fun hx => hmk hx.1), if_neg hmk]
  rw [List.drop_left]

theorem expand_brace_ref (f : String → String) (name suffix : List Char)
    (hnn : name ≠ []) (hnb : rbrace ∉ name) :
    expand f ('$' :: lbrace :: (name ++ rbrace :: suffix)) =
      (f (String.mk name)).toList ++ expand f suffix := by
  have hmk : String.mk name ≠ "" := string_mk_ne_empty name hnn
  have hgsn := getShellName_brace name suffix hnn hnb
  simp only [expand]
  rw [if_pos ⟨trivial, by simp⟩, hgsn]
  rw [if_neg (fun hx => hmk hx.1), if_neg hmk]
  have hdrop : (lbrace :: (name ++ rbrace :: suffix)).drop (name.length + 2) = suffix := by
    have heq : lbrace :: (name ++ rbrace :: suffix) =
        (lbrace :: name ++ [rbrace]) ++ suffix := by simp
    have hlen : (lbrace :: name ++ [rbrace]).length = name.length + 2 := by
      simp
    rw [heq, ← hlen, List.drop_left]
  rw [hdrop]

/-! ## Claim theorems -/

/-- C1: a row is included iff it satisfies every configured row filter
(logical AND); a filter whose column is absent from the row excludes the
row (fail-closed); a filter whose value is present but invalid (NULL)
excludes the row; a filter with an unrecognized operator matches whenever
its value is present and valid (fail-open at operator dispatch, which in
the code runs after the presence and validity checks). -/
theorem rowFilter_semantics (ext : GoStd) (row : Row) (metric : MetricConfig) :
    (shouldIncludeRow ext row metric = true ↔
      ∀ filter ∈ metric.rowFilters, applyRowFilter ext row filter = true) ∧
    (∀ filter : RowFilter, row filter.column = none →
      applyRowFilter ext row filter = false) ∧
    (∀ filter : RowFilter, ∀ v : CellValue, row filter.column = some v →
      v.valid = false → applyRowFilter ext row filter = false) ∧
    (∀ filter : RowFilter, ∀ v : CellValue, filter.operator ∉ knownOperators →
      row filter.column = some v → v.valid = true →
      applyRowFilter ext row filter = true) := by
  refine ⟨?_, ?_, ?_, ?_⟩
  · exact List.all_eq_true
  · intro filter h
    simp [applyRowFilter, h]
  · intro filter v hv hval
    cases v <;> simp [CellValue.valid] at hval <;> simp [applyRowFilter, hv, hval]
  · intro filter v hop hv hval
    cases v <;> simp [CellValue.valid] at hval <;>
      simp [applyRowFilter, hv, hval, operatorMatches_unknown filter _ hop]

/-- Concrete instance of the row-filter semantics theorem. -/
theorem rowFilter_semantics_witness :
    applyRowFilter extSample rowSample
      { column := "gone", operator := "equals", value := "x", values := [] } = false ∧
    applyRowFilter extSample rowSample
      { column := "nul", operator := "equals", value := "", values := [] } = false ∧
    applyRowFilter extSample rowSample
      { column := "env", operator := "mystery", value := "x", values := [] } = true := by
  refine ⟨?_, ?_, ?_⟩
  · exact (rowFilter_semantics extSample rowSample ⟨[], [], "", [], [], []⟩).2.1 _ (by decide)
  · exact (rowFilter_semantics extSample rowSample ⟨[], [], "", [], [], []⟩).2.2.1 _
      (.str { string := "", valid := false }) (by decide) (by decide)
  · exact (rowFilter_semantics extSample rowSample ⟨[], [], "", [], [], []⟩).2.2.2 _
      (.str { string := "prod", valid := true }) (by decide) (by decide) (by decide)

/-- C3: destination-slot construction fails exactly when some column
required by the column-role map has no matching result-set column, with
the error naming exactly the missing columns; when the global
ignore-missing-values mode is active, `Collect` returns after such a
failure with no output at all — no invalid metric and no processed row. -/
theorem missingColumns_semantics (ext : GoStd) (now : ℤ) (logContext : String)
    (m : columnTypeMap) (rd : RowsData) (mfs : List MetricConfig) :
    ((∃ c ∈ m.map Prod.fst, c ∉ rd.columns) ↔
       ∃ miss, scanDest logContext m rd.columns = .error (.missingCols logContext miss)) ∧
    (∀ miss, scanDest logContext m rd.columns = .error (.missingCols logContext miss) →
       ∀ c, c ∈ miss ↔ c ∈ m.map Prod.fst ∧ c ∉ rd.columns) ∧
    (∀ e, scanDest logContext m rd.columns = .error e →
       Collect ext now logContext none (.ok rd) true m mfs = []) := by
  refine ⟨?_, ?_, ?_⟩
  · constructor
    · intro hex
      have hcond := (scanDest_cond_iff m rd.columns).mpr hex
      exact ⟨_, by unfold scanDest; rw [if_pos hcond]⟩
    · rintro ⟨miss, hmiss⟩
      by_contra hno
      have hcond : ¬(((m.map Prod.fst).filter
          (fun c => rd.columns.contains c)).length ≠ m.length) := by
        intro hc
        exact hno ((scanDest_cond_iff m rd.columns).mp hc)
      unfold scanDest at hmiss
      rw [if_neg hcond] at hmiss
      exact Except.noConfusion hmiss
  · intro miss hmiss c
    simp only [scanDest] at hmiss
    split at hmiss
    · rw [Except.error.injEq, QError.missingCols.injEq] at hmiss
      rw [← hmiss.2]
      exact missingList_spec m rd.columns c
    · exact Except.noConfusion hmiss
  · intro e he
    simp [Collect, he]

/-- Concrete instance of the missing-columns semantics theorem. -/
theorem missingColumns_semantics_witness :
    (("b" ∈ ["b"]) ↔
       ("b" ∈ ([("a", columnType.key), ("b", columnType.value)] :
           columnTypeMap).map Prod.fst ∧ "b" ∉ ["a"])) ∧
    Collect extSample 0 "ctx" none
      (.ok { columns := ["a"], rows := [.ok rowSample], finalErr := none }) true
      [("a", columnType.key), ("b", columnType.value)] [mfSample] = [] := by
  constructor
  · exact (missingColumns_semantics extSample 0 "ctx"
      [("a", columnType.key), ("b", columnType.value)]
      { columns := ["a"], rows := [.ok rowSample], finalErr := none } [mfSample]).2.1
      ["b"] rfl "b"
  · exact (missingColumns_semantics extSample 0 "ctx"
      [("a", columnType.key), ("b", columnType.value)]
      { columns := ["a"], rows := [.ok rowSample], finalErr := none } [mfSample]).2.2
      (.missingCols "ctx" ["b"]) rfl

/-- C5: in prepared-statement mode, running a query against a handle other
than the one it is bound to is a panic (the outcome is the distinguished
panic outcome and the state is untouched, not an error return); running it
repeatedly against the handle it was first prepared on never panics. -/
theorem preparedHandle_semantics :
    (∀ (q : QueryState) (np : Bool) (conn h0 : ℕ) (pr : Except String ℕ),
        q.conn = some h0 → conn ≠ h0 →
        run q np conn pr = (.panicked, q) ∧ (run q np conn pr).1 ≠ .failed) ∧
    (∀ (q : QueryState) (conn : ℕ) (steps : List (Bool × Except String ℕ)),
        q.conn = none ∨ q.conn = some conn →
        RunOutcome.panicked ∉ (runSeq q conn steps).1) := by
  constructor
  · intro q np conn h0 pr hq hne
    have hcond : q.conn ≠ none ∧ q.conn ≠ some conn := by
      refine ⟨by simp [hq], ?_⟩
      rw [hq]
      intro hc
      exact hne (Option.some.injEq _ _ ▸ hc).symm
    have : run q np conn pr = (.panicked, q) := by
      unfold run
      rw [if_pos hcond]
    exact ⟨this, by rw [this]; simp⟩
  · intro q conn steps hq
    induction steps generalizing q with
    | nil => simp [runSeq]
    | cons step rest ih =>
        have h1 := run_no_panic_preserve q step.1 conn step.2 hq
        unfold runSeq
        intro hmem
        rcases List.mem_cons.mp hmem with heq | hrest
        · exact h1.1 heq.symm
        · exact ih _ h1.2 hrest

/-- Concrete instance of the prepared-handle semantics theorem. -/
theorem preparedHandle_semantics_witness :
    run { conn := some 1, stmt := some 1 } false 2 (.ok 3) =
      (.panicked, { conn := some 1, stmt := some 1 }) ∧
    RunOutcome.panicked ∉
      (runSeq { conn := none, stmt := none } 1 [(false, .ok 7), (false, .error "x")]).1 := by
  constructor
  · exact (preparedHandle_semantics.1 { conn := some 1, stmt := some 1 } false 2 1 (.ok 3)
      rfl (by decide)).1
  · exact preparedHandle_semantics.2 { conn := none, stmt := none } 1
      [(false, .ok 7), (false, .error "x")] (Or.inl rfl)

/-- C6: a Key, Value, or Time column whose scanned driver value is NULL
produces a row entry that is present and is the NULL cell itself —
validity flag false — rather than a defaulted valid value. -/
theorem nullPreserved_semantics (m : columnTypeMap) (columns : List String)
    (dest : List CellValue) (c : String) (cell : CellValue) (role : columnType)
    (hnd : columns.Nodup) (hmem : (c, cell) ∈ columns.zip dest)
    (hrole : ctLookup m c = some role) (halign : variantMatches role cell = true)
    (hinvalid : cell.valid = false) :
    scanRow m columns dest c = some cell ∧
      ∀ x, scanRow m columns dest c = some x → x.valid = false := by
  have hzn : ((columns.zip dest).map Prod.fst).Nodup :=
    (zip_keys_sublist columns dest).nodup hnd
  have h1 : scanRow m columns dest c = some cell :=
    scanFold_mem m (columns.zip dest) _ c cell role hzn hmem hrole halign
  exact ⟨h1, fun x hx => by
    rw [h1, Option.some.injEq] at hx
    rw [← hx]
    exact hinvalid⟩

/-- Concrete instance of the NULL-preservation theorem. -/
theorem nullPreserved_semantics_witness :
    scanRow [("a", columnType.key)] ["a"] [.str { string := "", valid := false }] "a" =
      some (.str { string := "", valid := false }) :=
  (nullPreserved_semantics [("a", columnType.key)] ["a"]
    [.str { string := "", valid := false }] "a" (.str { string := "", valid := false })
    columnType.key (by decide) (by decide) (by decide) (by decide) (by decide)).1

/-- C8: when destination-slot construction succeeds and one row in the
middle of the result set fails to scan, `Collect` emits exactly one
invalid metric for that row, in place, and the rows before and after it
contribute exactly their ordinary per-row outputs. -/
theorem rowIsolation_semantics (ext : GoStd) (now : ℤ) (logContext : String)
    (rd : RowsData) (ig : Bool) (m : columnTypeMap) (mfs : List MetricConfig)
    (dest : List SlotKind) (pre post : List (Except QError Row)) (e : QError)
    (hscan : scanDest logContext m rd.columns = .ok dest)
    (hrows : rd.rows = pre ++ .error e :: post) :
    Collect ext now logContext none (.ok rd) ig m mfs =
      pre.flatMap (rowOutputs ext now mfs) ++ [.invalid e]
        ++ post.flatMap (rowOutputs ext now mfs)
        ++ finalOutputs logContext rd.finalErr ∧
    (∀ row : Row, rowOutputs ext now mfs (.ok row) = processRow ext now mfs row) := by
  constructor
  · simp [Collect, hscan, hrows, List.flatMap_append, List.flatMap_cons, rowOutputs]
  · intro row
    rfl

/-- Concrete instance of the row-isolation theorem. -/
theorem rowIsolation_semantics_witness :
    Collect extSample 0 "ctx" none
      (.ok { columns := [], rows := [.ok rowSample, .error (.external "bad"), .ok rowSample],
             finalErr := none }) false [] [mfSample] =
      [Except.ok rowSample].flatMap (rowOutputs extSample 0 [mfSample]) ++ [.invalid (.external "bad")]
        ++ [Except.ok rowSample].flatMap (rowOutputs extSample 0 [mfSample])
        ++ finalOutputs "ctx" none :=
  (rowIsolation_semantics extSample 0 "ctx"
    { columns := [], rows := [.ok rowSample, .error (.external "bad"), .ok rowSample],
      finalErr := none } false [] [mfSample] [] [.ok rowSample] [.ok rowSample]
    (.external "bad") rfl rfl).1

/-- C10: each metric family of a query observes the original scanned row —
its contribution to the output only depends on that row and its own
configuration, wherever it sits in the family list — and the transformed
row agrees with the original row on every column that is not a
lag-calculation output, up to the column allowlist; the embedding of
`applyTransformations` builds a fresh map, so the input row is shared
unchanged across families. -/
theorem transformIsolation_semantics (ext : GoStd) (now : ℤ) (row : Row) :
    (∀ (pre post : List MetricConfig) (mf : MetricConfig),
        processRow ext now (pre ++ mf :: post) row =
          processRow ext now pre row ++ processRowFamily ext now row mf
            ++ processRow ext now post row) ∧
    (∀ (mf : MetricConfig) (k : String),
        (∀ lagCalc ∈ mf.lagCalculations, lagCalc.outputColumn ≠ k) →
        applyTransformations ext now row mf k =
          (if mf.columnFilters = [] then row k
           else if mf.columnFilters.contains k then row k else none)) := by
  constructor
  · intro pre post mf
    simp [processRow, List.flatMap_append, List.flatMap_cons]
  · intro mf k hk
    have hpres : applyLagCalculations ext now row mf k = row k :=
      applyLag_preserve ext now row mf.lagCalculations row k hk
    by_cases hcf : mf.columnFilters = []
    · simp [applyTransformations, hcf, hpres]
    · by_cases hck : k ∈ mf.columnFilters
      · simp [applyTransformations, hcf, hck, hpres]
      · simp [applyTransformations, hcf, hck]

/-- Concrete instance of the transformation-isolation theorem. -/
theorem transformIsolation_semantics_witness :
    processRow extSample 0 ([] ++ mfSample :: []) rowSample =
      processRow extSample 0 [] rowSample ++ processRowFamily extSample 0 rowSample mfSample
        ++ processRow extSample 0 [] rowSample ∧
    applyTransformations extSample 0 rowSample mfSample "env" =
      (if mfSample.columnFilters = [] then rowSample "env"
       else if mfSample.columnFilters.contains "env" then rowSample "env" else none) :=
  ⟨(transformIsolation_semantics extSample 0 rowSample).1 [] [] mfSample,
   (transformIsolation_semantics extSample 0 rowSample).2 mfSample "env" (by decide)⟩

/-- C4: registering the same column with two different roles anywhere in
the metric-family configurations makes construction fail with a
role-conflict error carrying the query context and a genuinely conflicted
column; when every duplicate registration agrees on the role, construction
succeeds and each column gets the role of its first registration. -/
theorem roleConflict_semantics (logContext : String) (mfs : List MetricConfig) :
    (∀ e, NewQuery logContext mfs = .error e →
       ∃ c t t', e = .conflict logContext c ∧
         (c, t) ∈ mfs.flatMap registrationsOf ∧
         (c, t') ∈ mfs.flatMap registrationsOf ∧ t ≠ t') ∧
    (¬ listConsistent (mfs.flatMap registrationsOf) →
       ∃ c, NewQuery logContext mfs = .error (.conflict logContext c)) ∧
    (listConsistent (mfs.flatMap registrationsOf) →
       ∃ m, NewQuery logContext mfs = .ok m ∧
         ∀ c, ctLookup m c = firstRole (mfs.flatMap registrationsOf) c) := by
  have hempty : ∀ c : String, ctLookup ([] : columnTypeMap) c = none := fun _ => rfl
  refine ⟨?_, ?_, ?_⟩
  · intro e he
    rcases setAll_error logContext (mfs.flatMap registrationsOf) [] e he with
      ⟨c, t, t', he', hmem, hdis, hne⟩
    rcases hdis with hl | hr
    · rw [hempty c] at hl
      exact Option.noConfusion hl
    · exact ⟨c, t, t', he', hmem, hr, fun hx => hne hx.symm⟩
  · intro hncons
    cases hres : NewQuery logContext mfs with
    | ok m =>
        exact absurd (setAll_ok_inv logContext (mfs.flatMap registrationsOf) [] m hres).1
          hncons
    | error e =>
        rcases setAll_error logContext (mfs.flatMap registrationsOf) [] e hres with
          ⟨c, t, t', he', _, _, _⟩
        exact ⟨c, by rw [he']⟩
  · intro hcons
    have hmap : mapConsistent [] (mfs.flatMap registrationsOf) := by
      intro r hr t' ht'
      rw [hempty r.1] at ht'
      exact Option.noConfusion ht'
    rcases setAll_ok logContext (mfs.flatMap registrationsOf) [] hcons hmap with
      ⟨m, hok, hlook⟩
    refine ⟨m, hok, fun c => ?_⟩
    rw [hlook c, hempty c, Option.none_or]

/-- Configuration registering one column both as a key label and as a
value column. -/
def mfConflict : MetricConfig where
  keyLabels := ["x"]
  values := ["x"]
  timestampValue := ""
  rowFilters := []
  lagCalculations := []
  columnFilters := []

/-- Concrete instance of the role-conflict semantics theorem. -/
theorem roleConflict_semantics_witness :
    ∃ c t t', (QError.conflict "job=j" "x") = .conflict "job=j" c ∧
      (c, t) ∈ ([mfConflict] : List MetricConfig).flatMap registrationsOf ∧
      (c, t') ∈ ([mfConflict] : List MetricConfig).flatMap registrationsOf ∧ t ≠ t' :=
  (roleConflict_semantics "job=j" [mfConflict]).1 (.conflict "job=j" "x") rfl

/-- C2: when distinct lag calculations target distinct output columns, each
calculation whose source column is present writes its output column as a
nullable float whose validity flag is false exactly when the computed lag
is zero; an unparseable timestamp string yields lag exactly zero; a native
timestamp-typed value is computed directly from the instant, whatever the
parse function does; and the computed elapsed seconds are zero exactly
when the source instant equals the current instant. -/
theorem lagCalculation_semantics (ext : GoStd) (now : ℤ) (row : Row)
    (metric : MetricConfig) :
    (∀ lagCalc ∈ metric.lagCalculations, ∀ v : CellValue,
       (metric.lagCalculations.map (fun lc => lc.outputColumn)).Nodup →
       row lagCalc.sourceColumn = some v →
       ∃ cell : NullFloat64,
         applyLagCalculations ext now row metric lagCalc.outputColumn =
           some (.float cell) ∧
         cell.float64 = calculateLag ext now v lagCalc.timestampFormat ∧
         (cell.valid = false ↔ calculateLag ext now v lagCalc.timestampFormat = 0)) ∧
    (∀ s format : String, s ≠ "" →
       ext.parseTime (if format = "" then defaultTimeFormat else format) s = none →
       calculateLag ext now (.str { string := s, valid := true }) format = 0) ∧
    (∀ (ext' : GoStd) (t : ℤ) (format : String),
       calculateLag ext' now (.time { time := t, valid := true }) format =
         durationSeconds (now - t)) ∧
    (∀ t : ℤ, durationSeconds (now - t) = 0 ↔ now = t) := by
  refine ⟨?_, ?_, ?_, ?_⟩
  · intro lagCalc hmem v hnd hsrc
    refine ⟨{ float64 := calculateLag ext now v lagCalc.timestampFormat
              valid := decide (calculateLag ext now v lagCalc.timestampFormat ≠ 0) },
      applyLag_write ext now row metric.lagCalculations hnd lagCalc hmem v hsrc row,
      rfl, ?_⟩
    simp
  · intro s format hs hparse
    simp [calculateLag, parseLag, hs, hparse]
  · intro ext' t format
    simp [calculateLag]
  · intro t
    unfold durationSeconds
    rw [div_eq_zero_iff]
    constructor
    · intro h
      rcases h with h | h
      · have : now - t = 0 := by exact_mod_cast h
        omega
      · norm_num at h
    · intro h
      subst h
      simp

/-- Concrete instance of the lag-calculation semantics theorem: the sample
row's source column parses to five seconds before "now", so the output
cell carries a valid lag of one second. -/
theorem lagCalculation_semantics_witness :
    (∃ cell : NullFloat64,
       applyLagCalculations extSample 6000000000 rowSample mfSample "lag" =
         some (.float cell) ∧
       cell.float64 = calculateLag extSample 6000000000
         (.str { string := "past", valid := true }) "" ∧
       (cell.valid = false ↔ calculateLag extSample 6000000000
         (.str { string := "past", valid := true }) "" = 0)) ∧
    calculateLag extSample 6000000000 (.str { string := "nope", valid := true }) "f" = 0 := by
  constructor
  · exact (lagCalculation_semantics extSample 6000000000 rowSample mfSample).1
      { sourceColumn := "when", outputColumn := "lag", timestampFormat := "" }
      (by decide) (.str { string := "past", valid := true }) (by decide) (by decide)
  · exact (lagCalculation_semantics extSample 6000000000 rowSample mfSample).2.1
      "nope" "f" (by decide) (by decide)

/-- Configuration whose lag-calculation output column is also declared as
a key label of the same metric family. -/
def mfOutputAsKey : MetricConfig where
  keyLabels := ["lag_out"]
  values := []
  timestampValue := ""
  rowFilters := []
  lagCalculations := [{ sourceColumn := "src", outputColumn := "lag_out", timestampFormat := "" }]
  columnFilters := []

/-- C7 counterexample: a column produced purely by a transformation CAN be
registered in the column-role map — declaring the lag output column as a
key label of the same family registers it with role Key, and `NewQuery`
succeeds with that registration in place. -/
theorem transformedColumn_registered_cex :
    transformedColumns mfOutputAsKey "lag_out" = true ∧
    NewQuery "job=j,query=q" [mfOutputAsKey] =
      .ok [("lag_out", columnType.key), ("src", columnType.key)] ∧
    ctLookup [("lag_out", columnType.key), ("src", columnType.key)] "lag_out" =
      some columnType.key :=
  ⟨rfl, rfl, rfl⟩

/-- C7 (amended): the transformation-output skip applies only to the value
columns of the family that declares the lag calculation — a lag output
column of a family is never registered with role Value by that family's
own registrations. -/
theorem transformedColumn_amended (mf : MetricConfig) (c : String)
    (h : transformedColumns mf c = true) :
    (c, columnType.value) ∉ registrationsOf mf := by
  intro hmem
  unfold registrationsOf at hmem
  simp only [List.mem_append, List.mem_map, List.mem_filter] at hmem
  rcases hmem with ((((⟨lc, _, hlc⟩ | ⟨f, _, hf⟩) | ⟨k, _, hk⟩) | ⟨vcol, hv, hveq⟩) | hts)
  · exact columnType.noConfusion (congrArg Prod.snd hlc)
  · exact columnType.noConfusion (congrArg Prod.snd hf)
  · exact columnType.noConfusion (congrArg Prod.snd hk)
  · have hc : vcol = c := congrArg Prod.fst hveq
    subst hc
    rw [h] at hv
    simp at hv
  · by_cases hts' : mf.timestampValue ≠ ""
    · rw [if_pos hts'] at hts
      rcases List.mem_singleton.mp hts with heq
      exact columnType.noConfusion (congrArg Prod.snd heq)
    · rw [if_neg hts'] at hts
      exact absurd hts (List.not_mem_nil _)

/-- Concrete instance of the amended transformed-column theorem. -/
theorem transformedColumn_amended_witness :
    ("lag_out", columnType.value) ∉ registrationsOf mfOutputAsKey :=
  transformedColumn_amended mfOutputAsKey "lag_out" (by decide)

/-- Sample environment used by concrete evaluations. -/
def envSample : String → Option String :=
  fun n => if n = "FOO" then some "bar" else none

/-- C9 counterexample: an unresolved brace-form reference is not left as
the literal token it was written as — expanding an undefined reference
written with braces strips the braces. -/
theorem envExpansion_cex :
    expandEnv (fun _ => none) "$\x7bFOO\x7d" = "$FOO" ∧
    ("$FOO" : String) ≠ "$\x7bFOO\x7d" := by
  constructor
  · have h1 : ("$\x7bFOO\x7d" : String).toList =
        '$' :: lbrace :: (['F', 'O', 'O'] ++ rbrace :: []) := by decide
    show String.mk
      (expand (lookupFunc (fun _ => none)) ("$\x7bFOO\x7d" : String).toList) = "$FOO"
    rw [h1, expand_brace_ref (lookupFunc (fun _ => none)) ['F', 'O', 'O'] []
      (by simp) (by decide)]
    have h2 : expand (lookupFunc (fun _ => none)) [] = [] := by simp [expand]
    rw [h2]
    decide
  · decide

/-- C9 (amended): expansion never fails; text before a reference passes
through unchanged; a plain reference expands to the lookup result, which
is the value for a defined variable and the literal dollar-name token —
exactly the text the reference was written as — for an undefined one; a
brace-form reference expands to the same lookup result, so an undefined
brace reference is rewritten to the brace-less dollar form rather than
left as written. -/
theorem envExpansion_semantics (env : String → Option String)
    (pre name suffix s : List Char) (nm v : String) :
    ('$' ∉ pre →
       expandEnv env (String.mk (pre ++ s)) =
         String.mk (pre ++ expand (lookupFunc env) s)) ∧
    (name ≠ [] → (∀ c ∈ name, isAlphaNum c = true) →
     (∀ c, name.head? = some c → isShellSpecialVar c = false) →
     (∀ c, suffix.head? = some c → isAlphaNum c = false) →
       expandEnv env (String.mk ('$' :: (name ++ suffix))) =
         String.mk ((lookupFunc env (String.mk name)).toList ++
           expand (lookupFunc env) suffix)) ∧
    (name ≠ [] → rbrace ∉ name →
       expandEnv env (String.mk ('$' :: lbrace :: (name ++ rbrace :: suffix))) =
         String.mk ((lookupFunc env (String.mk name)).toList ++
           expand (lookupFunc env) suffix)) ∧
    (env nm = none → lookupFunc env nm = "$" ++ nm) ∧
    (env nm = some v → lookupFunc env nm = v) := by
  refine ⟨?_, ?_, ?_, ?_, ?_⟩
  · intro h
    show String.mk (expand (lookupFunc env) (String.mk (pre ++ s)).toList) = _
    rw [show (String.mk (pre ++ s)).toList = pre ++ s from rfl,
      expand_no_dollar (lookupFunc env) pre s h]
  · intro h1 h2 h3 h4
    show String.mk (expand (lookupFunc env) _) = _
    rw [show (String.mk ('$' :: (name ++ suffix))).toList =
        '$' :: (name ++ suffix) from rfl,
      expand_plain_ref (lookupFunc env) name suffix h1 h2 h3 h4]
  · intro h1 h2
    show String.mk (expand (lookupFunc env) _) = _
    rw [show (String.mk ('$' :: lbrace :: (name ++ rbrace :: suffix))).toList =
        '$' :: lbrace :: (name ++ rbrace :: suffix) from rfl,
      expand_brace_ref (lookupFunc env) name suffix h1 h2]
  · intro h
    simp [lookupFunc, h]
  · intro h
    simp [lookupFunc, h]

/-- Concrete instance of the env-expansion semantics theorem. -/
theorem envExpansion_semantics_witness :
    expandEnv envSample (String.mk ('$' :: (['F', 'O', 'O'] ++ []))) =
      String.mk ((lookupFunc envSample (String.mk ['F', 'O', 'O'])).toList ++
        expand (lookupFunc envSample) []) ∧
    lookupFunc envSample "FOO" = "bar" ∧
    lookupFunc envSample "MISSING" = "$" ++ "MISSING" := by
  refine ⟨?_, ?_, ?_⟩
  · exact (envExpansion_semantics envSample [] ['F', 'O', 'O'] [] [] "" "").2.1
      (by simp) (by decide)
      (fun c hc => by rw [← Option.some.inj hc]; decide)
      (fun c hc => Option.noConfusion hc)
  · exact (envExpansion_semantics envSample [] [] [] [] "FOO" "bar").2.2.2.2 rfl
  · exact (envExpansion_semantics envSample [] [] [] [] "MISSING" "").2.2.2.1 rfl

end SqlExporter
